import Mathlib

/-!
Verification of the path-sanitization core of the `bucciarati` repository
(`bucc_secco/src/lib.rs`), modelled as a shallow embedding.

Paths are modelled as strings over `List Char` on a Unix-like platform:
`parseComponentsCh` embeds `std::path::Path::components()` (separator `'/'`,
repeated separators collapsed, interior `.` segments dropped, a leading `.`
and a leading root kept), `pushCh` embeds `std::path::PathBuf::push` (which
also gives `Path::join` and `FromIterator<Component> for PathBuf`), and
`sanitize` embeds `SanitizedPath::sanitize`.
-/

set_option autoImplicit false

namespace BuccSecco

/-- Embeds `std::path::Component`. The `pfx` constructor stands for
`Component::Prefix` (Windows drive/UNC prefixes); Unix parsing never
produces it, but `sanitize` matches on it as the source does. -/
inductive Component where
  | rootDir
  | curDir
  | parentDir
  | normal (name : List Char)
  | pfx (value : List Char)
deriving DecidableEq

/-- The character sequence a component contributes when a `Path` is iterated
or rebuilt (`Component::as_os_str`). -/
def compOsChars : Component → List Char
  | .rootDir => ['/']
  | .curDir => ['.']
  | .parentDir => ['.', '.']
  | .normal n => n
  | .pfx v => v

/-- Split a character list at every `'/'`, keeping empty chunks (the raw
separator structure underlying `Path::components()`). Never returns `[]`. -/
def splitSlash : List Char → List (List Char)
  | [] => [[]]
  | c :: cs =>
    if c = '/' then [] :: splitSlash cs
    else (c :: (splitSlash cs).headD []) :: (splitSlash cs).tail

/-- `Path::components()` keeps a chunk only if it is neither empty nor `"."`
(interior current-directory markers and repeated separators vanish). -/
def isKeptChunk (c : List Char) : Bool :=
  if c = [] then false else if c = ['.'] then false else true

/-- A kept chunk is a parent-directory marker when it is `".."`, otherwise a
normal named segment. -/
def chunkToComponent (c : List Char) : Component :=
  if c = ['.', '.'] then .parentDir else .normal c

/-- The optional leading component of `Path::components()`: a root anchor when
the path starts with a separator, else a current-directory marker when the
first raw chunk is exactly `"."`. -/
def parseLead (l : List Char) : List Component :=
  if l.head? = some '/' then [Component.rootDir]
  else if (splitSlash l).head? = some ['.'] then [Component.curDir]
  else []

/-- Embeds `Path::components()` on Unix: an optional leading root anchor or
current-directory marker, followed by the kept chunks. -/
def parseComponentsCh (l : List Char) : List Component :=
  if l = [] then []
  else parseLead l ++ ((splitSlash l).filter isKeptChunk).map chunkToComponent

def parseComponents (s : String) : List Component :=
  parseComponentsCh s.toList

/-- The body of the closure passed to `Iterator::scan` in
`SanitizedPath::sanitize`, at the state value `depth` it observes. It returns
what the closure returns: `Some((depth', component_option))`, where the
`ParentDir` arm uses `depth.checked_sub(1)`. -/
def closureBody (depth : Nat) : Component → Option (Nat × Option Component)
  | .rootDir => some (depth, some .curDir)
  | .curDir => some (depth, some .curDir)
  | .parentDir =>
    match depth with
    | 0 => some (depth, none)
    | d + 1 => some (d, some .parentDir)
  | .normal n => some (depth, some (.normal n))
  | .pfx _ => some (depth, some .curDir)

/-- Embeds the `scan` call. In the source the closure binds the scan state by
the pattern `&mut depth`, which dereferences the state and binds a copy of the
value; no branch assigns through the state reference, so the state threaded to
the next element is unchanged. -/
def scanComponents : Nat → List Component → List (Nat × Option Component)
  | _, [] => []
  | depth, c :: cs =>
    match closureBody depth c with
    | none => []
    | some out => out :: scanComponents depth cs

/-- The component pipeline of `sanitize`: scan from depth 0, then
`filter_map(|(_, component)| component)`. -/
def sanitizeComponents (cs : List Component) : List Component :=
  (scanComponents 0 cs).filterMap (fun p => p.2)

/-- Embeds `PathBuf::push` (and hence `Path::join` and collecting components
into a `PathBuf`): an absolute addend replaces the buffer; otherwise a
separator is inserted when the buffer is nonempty and does not already end in
one. -/
def pushCh (buf addend : List Char) : List Char :=
  if addend.head? = some '/' then addend
  else if buf = [] then addend
  else if buf.getLast? = some '/' then buf ++ addend
  else buf ++ '/' :: addend

/-- Embeds `.collect::<PathBuf>()` over components: push each component's
character sequence onto an initially empty buffer. -/
def renderComponentsCh (cs : List Component) : List Char :=
  (cs.map compOsChars).foldl pushCh []

/-- The cleaned path of `sanitize` before any base join. -/
def cleanedChars (l : List Char) : List Char :=
  renderComponentsCh (sanitizeComponents (parseComponentsCh l))

/-- The final path of `sanitize`: the cleaned path, joined under the base path
when one is supplied. -/
def finalChars (l : List Char) : Option (List Char) → List Char
  | some base => pushCh base (cleanedChars l)
  | none => cleanedChars l

def nulChar : Char := Char.ofNat 0

/-- Embeds `any_nul_bytes`: iterate the path's components and compare each
component's character sequence with `"\0"`. -/
def anyNulBytesCh (l : List Char) : Bool :=
  (parseComponentsCh l).any (fun c => decide (compOsChars c = [nulChar]))

/-- Embeds the error produced by `sanitize` in hardened mode
(`io::ErrorKind::InvalidData`). -/
inductive SanitizeError where
  | invalidData
deriving DecidableEq

/-- Embeds the `SanitizedPath` newtype around `PathBuf`. -/
structure SanitizedPath where
  path : String
deriving DecidableEq

/-- Embeds `SanitizedPath::sanitize`. The compile-time `cfg(fail_on_nul_byte)`
switch is modelled as the boolean `failOnNulByte`. -/
def sanitize (failOnNulByte : Bool) (path : String) (basePath : Option String) :
    Except SanitizeError SanitizedPath :=
  if failOnNulByte && anyNulBytesCh path.toList then
    .error .invalidData
  else
    .ok ⟨String.mk (finalChars path.toList (basePath.map String.toList))⟩

/-- Embeds the `TryFrom<&str>` conversion: `sanitize` with no base path. -/
def tryFromStr (failOnNulByte : Bool) (path : String) :
    Except SanitizeError SanitizedPath :=
  sanitize failOnNulByte path none

/-- The condition of the `cfg(debug_assertions)` assertion placed after
construction of the final path: `assert!(any_nul_bytes(&final_path))`. -/
def debugAssertCond (path : String) (basePath : Option String) : Bool :=
  anyNulBytesCh (finalChars path.toList (basePath.map String.toList))

instance : DecidableEq (Except SanitizeError SanitizedPath) := fun a b =>
  match a, b with
  | .error e, .error f =>
    if h : e = f then .isTrue (by rw [h]) else .isFalse (by intro hc; cases hc; exact h rfl)
  | .error _, .ok _ => .isFalse (by intro hc; cases hc)
  | .ok _, .error _ => .isFalse (by intro hc; cases hc)
  | .ok x, .ok y =>
    if h : x = y then .isTrue (by rw [h]) else .isFalse (by intro hc; cases hc; exact h rfl)

/-- `true` exactly on the error case of a `sanitize` result. -/
def isErr : Except SanitizeError SanitizedPath → Bool
  | .error _ => true
  | .ok _ => false

/-- Number of parent-directory components in a component list. -/
def parentCount (cs : List Component) : Nat :=
  cs.countP (fun c => decide (c = Component.parentDir))

def isNormalComp : Component → Bool
  | .normal _ => true
  | _ => false

/-- Number of normal named components in a component list. -/
def normalCount (cs : List Component) : Nat :=
  cs.countP isNormalComp

/-- What the scan-and-filter pipeline emits for a single component. -/
def emitComp : Component → List Component
  | .rootDir => [.curDir]
  | .curDir => [.curDir]
  | .parentDir => []
  | .normal n => [.normal n]
  | .pfx _ => [.curDir]

/-- A character list that is a well-formed normal segment name: nonempty, not
`"."`, not `".."`, and containing no separator. -/
def goodSeg (n : List Char) : Bool :=
  if n = [] then false
  else if n = ['.'] then false
  else if n = ['.', '.'] then false
  else !(n.contains '/')

/-- Concatenation of segments, each preceded by a separator. -/
def sepJoin (names : List (List Char)) : List Char :=
  names.foldr (fun n acc => '/' :: (n ++ acc)) []

/-- Shape of every cleaned component list `sanitize` can produce: well-formed
normal segments, possibly led by one current-directory marker. -/
def goodComps (cs : List Component) : Prop :=
  ∃ names : List (List Char), (cs = names.map Component.normal ∨
      cs = Component.curDir :: names.map Component.normal) ∧
    ∀ n ∈ names, goodSeg n = true

/-! ### Basic lemmas about the component pipeline -/

theorem splitSlash_ne_nil (l : List Char) : splitSlash l ≠ [] := by
  cases l with
  | nil => simp [splitSlash]
  | cons c cs => simp only [splitSlash]; split <;> simp

theorem splitSlash_no_slash : ∀ l : List Char, ∀ c ∈ splitSlash l, '/' ∉ c := by
  intro l
  induction l with
  | nil =>
    intro c hc
    simp only [splitSlash, List.mem_singleton] at hc
    simp [hc]
  | cons a cs ih =>
    intro c hc
    by_cases ha : a = '/'
    · rw [splitSlash, if_pos ha] at hc
      rcases List.mem_cons.mp hc with h | h
      · simp [h]
      · exact ih c h
    · rw [splitSlash, if_neg ha] at hc
      rcases List.mem_cons.mp hc with h | h
      · subst h
        intro hmem
        rcases List.mem_cons.mp hmem with h1 | h1
        · exact ha h1.symm
        · cases e : splitSlash cs with
          | nil => exact splitSlash_ne_nil cs e
          | cons s rest =>
            rw [e] at h1
            simp only [List.headD_cons] at h1
            exact ih s (by rw [e]; exact List.mem_cons_self s rest) h1
      · cases e : splitSlash cs with
        | nil => exact absurd e (splitSlash_ne_nil cs)
        | cons s rest =>
          rw [e] at h
          simp only [List.tail_cons] at h
          exact ih c (by rw [e]; exact List.mem_cons_of_mem s h)

theorem splitSlash_of_no_slash {n : List Char} (h : '/' ∉ n) : splitSlash n = [n] := by
  induction n with
  | nil => rfl
  | cons a cs ih =>
    have ha : a ≠ '/' := fun e => h (e ▸ List.mem_cons_self a cs)
    have hcs : '/' ∉ cs := fun e => h (List.mem_cons_of_mem a e)
    rw [splitSlash, if_neg ha, ih hcs]
    rfl

theorem splitSlash_append {n : List Char} (h : '/' ∉ n) (l : List Char) :
    splitSlash (n ++ '/' :: l) = n :: splitSlash l := by
  induction n with
  | nil => simp [splitSlash]
  | cons a cs ih =>
    have ha : a ≠ '/' := fun e => h (e ▸ List.mem_cons_self a cs)
    have hcs : '/' ∉ cs := fun e => h (List.mem_cons_of_mem a e)
    rw [List.cons_append, splitSlash, if_neg ha, ih hcs]
    rfl

theorem sanitizeComponents_nil : sanitizeComponents [] = [] := rfl

theorem sanitizeComponents_cons (c : Component) (cs : List Component) :
    sanitizeComponents (c :: cs) = emitComp c ++ sanitizeComponents cs := by
  cases c <;> rfl

theorem sanitizeComponents_append (xs ys : List Component) :
    sanitizeComponents (xs ++ ys) = sanitizeComponents xs ++ sanitizeComponents ys := by
  induction xs with
  | nil => rfl
  | cons c cs ih =>
    rw [List.cons_append, sanitizeComponents_cons, ih, sanitizeComponents_cons,
      List.append_assoc]

theorem parentCount_emitComp (c : Component) : parentCount (emitComp c) = 0 := by
  cases c <;> rfl

theorem parentCount_append (xs ys : List Component) :
    parentCount (xs ++ ys) = parentCount xs + parentCount ys :=
  List.countP_append _ _ _

theorem parentCount_sanitizeComponents (cs : List Component) :
    parentCount (sanitizeComponents cs) = 0 := by
  induction cs with
  | nil => rfl
  | cons c cs ih =>
    rw [sanitizeComponents_cons, parentCount_append, parentCount_emitComp, ih]

theorem parseLead_shape (l : List Char) :
    ∀ c ∈ parseLead l, c = Component.rootDir ∨ c = Component.curDir := by
  intro c hc
  unfold parseLead at hc
  split at hc
  · simp only [List.mem_singleton] at hc
    exact Or.inl hc
  · split at hc
    · simp only [List.mem_singleton] at hc
      exact Or.inr hc
    · simp at hc

theorem parse_shape (l : List Char) :
    ∀ c ∈ parseComponentsCh l,
      c = Component.rootDir ∨ c = Component.curDir ∨ c = Component.parentDir ∨
        ∃ n, c = Component.normal n := by
  intro c hc
  unfold parseComponentsCh at hc
  split at hc
  · simp at hc
  · rcases List.mem_append.mp hc with h | h
    · rcases parseLead_shape l c h with h1 | h1
      · exact Or.inl h1
      · exact Or.inr (Or.inl h1)
    · rcases List.mem_map.mp h with ⟨ch, _, rfl⟩
      unfold chunkToComponent
      split
      · exact Or.inr (Or.inr (Or.inl rfl))
      · exact Or.inr (Or.inr (Or.inr ⟨ch, rfl⟩))

theorem anyNulBytes_iff_mem (l : List Char) :
    anyNulBytesCh l = true ↔ Component.normal [nulChar] ∈ parseComponentsCh l := by
  unfold anyNulBytesCh
  rw [List.any_eq_true]
  constructor
  · rintro ⟨c, hc, heq⟩
    rw [decide_eq_true_eq] at heq
    rcases parse_shape l c hc with rfl | rfl | rfl | ⟨n, rfl⟩
    · simp only [compOsChars, List.cons.injEq] at heq
      exact absurd heq.1 (by decide)
    · simp only [compOsChars, List.cons.injEq] at heq
      exact absurd heq.1 (by decide)
    · simp only [compOsChars] at heq
      exact absurd heq (by decide)
    · simp only [compOsChars] at heq
      rw [heq] at hc
      exact hc
  · intro h
    exact ⟨Component.normal [nulChar], h, by simp [compOsChars]⟩

/-! ### Shape of cleaned outputs, and the parse/render round trip -/

theorem goodSeg_spec {n : List Char} (h : goodSeg n = true) :
    n ≠ [] ∧ n ≠ ['.'] ∧ n ≠ ['.', '.'] ∧ '/' ∉ n := by
  unfold goodSeg at h
  split at h
  · cases h
  next h1 =>
    split at h
    · cases h
    next h2 =>
      split at h
      · cases h
      next h3 =>
        refine ⟨h1, h2, h3, ?_⟩
        rw [Bool.not_eq_true'] at h
        simp_all

theorem goodSeg_head_ne_slash {n : List Char} (h : goodSeg n = true) :
    n.head? ≠ some '/' := by
  obtain ⟨hne, -, -, hns⟩ := goodSeg_spec h
  cases n with
  | nil => simp
  | cons a t =>
    simp only [List.head?_cons]
    intro e
    rw [Option.some.inj e] at hns
    exact hns (List.mem_cons_self '/' t)

theorem goodSeg_getLast_ne_slash {n : List Char} (h : goodSeg n = true) :
    n.getLast? ≠ some '/' := by
  obtain ⟨-, -, -, hns⟩ := goodSeg_spec h
  intro e
  exact hns (List.mem_of_mem_getLast? (e ▸ rfl))

theorem pushCh_nil_buf (n : List Char) : pushCh [] n = n := by
  unfold pushCh
  split
  · rfl
  · rw [if_pos rfl]

theorem pushCh_of_good {buf n : List Char} (hbuf : buf ≠ [])
    (hlast : buf.getLast? ≠ some '/') (hn : goodSeg n = true) :
    pushCh buf n = buf ++ '/' :: n := by
  unfold pushCh
  rw [if_neg (goodSeg_head_ne_slash hn), if_neg hbuf, if_neg hlast]

theorem foldl_pushCh_good : ∀ (names : List (List Char)) (buf : List Char),
    buf ≠ [] → buf.getLast? ≠ some '/' → (∀ n ∈ names, goodSeg n = true) →
    names.foldl pushCh buf = buf ++ sepJoin names := by
  intro names
  induction names with
  | nil =>
    intro buf _ _ _
    simp [sepJoin]
  | cons n rest ih =>
    intro buf h1 h2 h3
    have hn := h3 n (List.mem_cons_self n rest)
    obtain ⟨hne, -, -, hns⟩ := goodSeg_spec hn
    rw [List.foldl_cons, pushCh_of_good h1 h2 hn,
      ih (buf ++ '/' :: n) (by simp) ?hlast
        (fun m hm => h3 m (List.mem_cons_of_mem n hm))]
    · show buf ++ '/' :: n ++ sepJoin rest = buf ++ sepJoin (n :: rest)
      rw [List.append_assoc]
      rfl
    case hlast =>
      rw [show buf ++ '/' :: n = (buf ++ ['/']) ++ n by simp,
        List.getLast?_append_of_ne_nil _ hne]
      exact goodSeg_getLast_ne_slash hn

theorem sepJoin_cons (n : List Char) (rest : List (List Char)) :
    sepJoin (n :: rest) = '/' :: (n ++ sepJoin rest) := rfl

theorem splitSlash_sepJoin : ∀ (names : List (List Char)) (c0 : List Char),
    '/' ∉ c0 → (∀ n ∈ names, '/' ∉ n) →
    splitSlash (c0 ++ sepJoin names) = c0 :: names := by
  intro names
  induction names with
  | nil =>
    intro c0 h0 _
    show splitSlash (c0 ++ []) = [c0]
    rw [List.append_nil]
    exact splitSlash_of_no_slash h0
  | cons n rest ih =>
    intro c0 h0 hall
    rw [sepJoin_cons, splitSlash_append h0,
      ih n (hall n (List.mem_cons_self n rest))
        (fun m hm => hall m (List.mem_cons_of_mem n hm))]

theorem isKeptChunk_eq_true {c : List Char} (h1 : c ≠ []) (h2 : c ≠ ['.']) :
    isKeptChunk c = true := by
  unfold isKeptChunk
  rw [if_neg h1, if_neg h2]

theorem isKeptChunk_true_iff {c : List Char} :
    isKeptChunk c = true ↔ c ≠ [] ∧ c ≠ ['.'] := by
  constructor
  · intro h
    unfold isKeptChunk at h
    split at h
    · cases h
    next h1 =>
      split at h
      · cases h
      next h2 => exact ⟨h1, h2⟩
  · intro ⟨h1, h2⟩
    exact isKeptChunk_eq_true h1 h2

theorem map_compOs_map_normal (names : List (List Char)) :
    (names.map Component.normal).map compOsChars = names := by
  induction names with
  | nil => rfl
  | cons n rest ih => simp only [List.map_cons, compOsChars, ih]

theorem sanitizeComponents_map_normal (names : List (List Char)) :
    sanitizeComponents (names.map Component.normal) = names.map Component.normal := by
  induction names with
  | nil => rfl
  | cons n rest ih =>
    rw [List.map_cons, sanitizeComponents_cons, ih]
    rfl

theorem sanitizeComponents_map_chunk (cl : List (List Char)) :
    sanitizeComponents (cl.map chunkToComponent) =
      (cl.filter (fun c => decide (c ≠ ['.', '.']))).map Component.normal := by
  induction cl with
  | nil => rfl
  | cons c rest ih =>
    rw [List.map_cons, sanitizeComponents_cons]
    unfold chunkToComponent
    by_cases hc : c = ['.', '.']
    · rw [if_pos hc, List.filter_cons_of_neg (by simp [hc])]
      exact ih
    · rw [if_neg hc, List.filter_cons_of_pos (by simp [hc]), List.map_cons]
      show Component.normal c :: sanitizeComponents (rest.map chunkToComponent) = _
      rw [ih]

theorem parse_render_good : ∀ {cs : List Component}, goodComps cs →
    parseComponentsCh (renderComponentsCh cs) = cs := by
  rintro cs ⟨names, hdisj, hgood⟩
  rcases hdisj with rfl | rfl
  · cases names with
    | nil => rfl
    | cons n0 rest =>
      have hgood0 := hgood n0 (List.mem_cons_self n0 rest)
      obtain ⟨hne, hdot, hdd, hns⟩ := goodSeg_spec hgood0
      have hrest : ∀ m ∈ rest, goodSeg m = true :=
        fun m hm => hgood m (List.mem_cons_of_mem n0 hm)
      have hrender : renderComponentsCh ((n0 :: rest).map Component.normal) =
          n0 ++ sepJoin rest := by
        unfold renderComponentsCh
        rw [map_compOs_map_normal, List.foldl_cons, pushCh_nil_buf,
          foldl_pushCh_good rest n0 hne (goodSeg_getLast_ne_slash hgood0) hrest]
      rw [hrender]
      have hnonnil : n0 ++ sepJoin rest ≠ [] := by
        cases n0 with
        | nil => exact absurd rfl hne
        | cons a t => simp
      have hsplit : splitSlash (n0 ++ sepJoin rest) = n0 :: rest :=
        splitSlash_sepJoin rest n0 hns (fun m hm => (goodSeg_spec (hrest m hm)).2.2.2)
      unfold parseComponentsCh
      rw [if_neg hnonnil]
      have hlead : parseLead (n0 ++ sepJoin rest) = [] := by
        unfold parseLead
        rw [if_neg ?hh, hsplit, if_neg ?hd]
        case hh =>
          cases n0 with
          | nil => exact absurd rfl hne
          | cons a t =>
            simp only [List.cons_append, List.head?_cons]
            intro e
            rw [Option.some.inj e] at hns
            exact hns (List.mem_cons_self '/' t)
        case hd =>
          simp only [List.head?_cons]
          intro e
          exact hdot (Option.some.inj e)
      rw [hlead, hsplit, List.nil_append,
        List.filter_eq_self.mpr ?hk]
      case hk =>
        intro c hc
        rcases List.mem_cons.mp hc with rfl | hc2
        · exact isKeptChunk_eq_true hne hdot
        · obtain ⟨h1, h2, -, -⟩ := goodSeg_spec (hrest c hc2)
          exact isKeptChunk_eq_true h1 h2
      apply List.map_eq_map_iff.mpr
      intro c hc
      have hcdd : c ≠ ['.', '.'] := by
        rcases List.mem_cons.mp hc with rfl | hc2
        · exact hdd
        · exact (goodSeg_spec (hrest c hc2)).2.2.1
      unfold chunkToComponent
      rw [if_neg hcdd]
  · cases names with
    | nil => decide
    | cons n0 rest =>
      have hgood' : ∀ m ∈ n0 :: rest, goodSeg m = true := hgood
      have hrender : renderComponentsCh
          (Component.curDir :: (n0 :: rest).map Component.normal) =
          ['.'] ++ sepJoin (n0 :: rest) := by
        unfold renderComponentsCh
        rw [List.map_cons, map_compOs_map_normal]
        show (['.'] :: n0 :: rest).foldl pushCh [] = _
        rw [List.foldl_cons, pushCh_nil_buf,
          foldl_pushCh_good (n0 :: rest) ['.'] (by simp) (by decide) hgood']
      rw [hrender]
      have hsplit : splitSlash (['.'] ++ sepJoin (n0 :: rest)) = ['.'] :: n0 :: rest :=
        splitSlash_sepJoin (n0 :: rest) ['.'] (by decide)
          (fun m hm => (goodSeg_spec (hgood' m hm)).2.2.2)
      unfold parseComponentsCh
      rw [if_neg (by simp [sepJoin_cons])]
      have hlead : parseLead (['.'] ++ sepJoin (n0 :: rest)) = [Component.curDir] := by
        unfold parseLead
        rw [if_neg (by simp [sepJoin_cons]), hsplit,
          if_pos (show (['.'] :: n0 :: rest).head? = some ['.'] from rfl)]
      rw [hlead, hsplit,
        List.filter_cons_of_neg (by decide),
        List.filter_eq_self.mpr ?hk2]
      case hk2 =>
        intro c hc
        obtain ⟨h1, h2, -, -⟩ := goodSeg_spec (hgood' c hc)
        exact isKeptChunk_eq_true h1 h2
      show _ ++ _ = Component.curDir :: _
      rw [List.singleton_append, List.cons_inj_right]
      apply List.map_eq_map_iff.mpr
      intro c hc
      unfold chunkToComponent
      rw [if_neg (goodSeg_spec (hgood' c hc)).2.2.1]

theorem san_parseLead (l : List Char) :
    sanitizeComponents (parseLead l) = [] ∨
      sanitizeComponents (parseLead l) = [Component.curDir] := by
  unfold parseLead
  split
  · exact Or.inr rfl
  · split
    · exact Or.inr rfl
    · exact Or.inl rfl

theorem goodComps_sanParse (l : List Char) :
    goodComps (sanitizeComponents (parseComponentsCh l)) := by
  unfold parseComponentsCh
  split
  · exact ⟨[], Or.inl rfl, by simp⟩
  next hne =>
    rw [sanitizeComponents_append, sanitizeComponents_map_chunk]
    have hgood : ∀ n ∈ ((splitSlash l).filter isKeptChunk).filter
        (fun c => decide (c ≠ ['.', '.'])), goodSeg n = true := by
      intro n hn
      obtain ⟨h2, hdd⟩ := List.mem_filter.mp hn
      obtain ⟨hmem, hk⟩ := List.mem_filter.mp h2
      obtain ⟨h1, hdot⟩ := isKeptChunk_true_iff.mp hk
      have hns := splitSlash_no_slash l n hmem
      unfold goodSeg
      rw [if_neg h1, if_neg hdot, if_neg (by simpa using hdd)]
      simp [hns]
    rcases san_parseLead l with he | he
    · rw [he, List.nil_append]
      exact ⟨_, Or.inl rfl, hgood⟩
    · rw [he]
      exact ⟨_, Or.inr rfl, hgood⟩

theorem sanitizeComponents_good {cs : List Component} (h : goodComps cs) :
    sanitizeComponents cs = cs := by
  rcases h with ⟨names, hdisj, -⟩
  rcases hdisj with rfl | rfl
  · exact sanitizeComponents_map_normal names
  · rw [sanitizeComponents_cons, sanitizeComponents_map_normal]
    rfl

theorem cleanedChars_idem (l : List Char) :
    cleanedChars (cleanedChars l) = cleanedChars l := by
  have hg := goodComps_sanParse l
  show renderComponentsCh (sanitizeComponents (parseComponentsCh
    (renderComponentsCh (sanitizeComponents (parseComponentsCh l))))) = _
  rw [parse_render_good hg, sanitizeComponents_good hg]
  rfl

/-! ### Claims -/

/-- C1: for every raw input path (any arrangement of parent references, named
segments and root anchors) and every optional base path, the component
sequence that `sanitize` places below the starting point never ascends past
it: over every prefix of the cleaned components, parent-directory markers
never outnumber normal segments, so the result can never reference a location
above the base path (or above the virtual root when no base is given). -/
theorem c1_no_escape (s : String) (n : Nat) :
    parentCount ((sanitizeComponents (parseComponents s)).take n) ≤
      normalCount ((sanitizeComponents (parseComponents s)).take n) := by
  have h0 : parentCount ((sanitizeComponents (parseComponents s)).take n) = 0 := by
    have hle := (List.take_sublist n (sanitizeComponents (parseComponents s))).countP_le
      (fun c => decide (c = Component.parentDir))
    have hfull := parentCount_sanitizeComponents (parseComponents s)
    unfold parentCount at hfull ⊢
    omega
  rw [h0]
  exact Nat.zero_le _

/-- C2 (code bug): the source intends the scan to track a virtual depth, but
the closure receives the scan state through the copying pattern `&mut depth`
and no branch ever writes it, so the depth observed at every component stays
0. At input "a/.." the parent marker meets depth 0 and is silently dropped
instead of being emitted at depth 1: the result is "a" instead of "a/..". -/
theorem c2_depth_never_advances :
    scanComponents 0 (parseComponents "a/..") =
      [(0, some (Component.normal ['a'])), (0, none)] ∧
    sanitize false "a/.." none = Except.ok ⟨"a"⟩ :=
  ⟨by decide, by decide⟩

/-- C3 (counterexample): `sanitize "a/b/../../../c"` with no base does not
produce the path "c". -/
theorem c3_counterexample :
    decide (sanitize false "a/b/../../../c" none = Except.ok ⟨"c"⟩) = false := by
  decide

/-- C3 (amended): `sanitize "a/b/../../../c"` with no base produces "a/b/c":
all three parent-reference segments are discarded, because the scan state
never leaves 0, and the named segments pass through unchanged. -/
theorem c3_amended :
    sanitize false "a/b/../../../c" none = Except.ok ⟨"a/b/c"⟩ := by decide

/-- C4 (counterexample): `sanitize "a/b/../c"` with no base does not return
the path "a/c". -/
theorem c4_counterexample :
    decide (sanitize false "a/b/../c" none = Except.ok ⟨"a/c"⟩) = false := by
  decide

/-- C4 (amended): `sanitize "a/b/../c"` with no base returns "a/b/c": the
parent-reference segment meets depth 0 (the counter is never advanced) and is
dropped, leaving the segments a, b and c. -/
theorem c4_amended :
    sanitize false "a/b/../c" none = Except.ok ⟨"a/b/c"⟩ := by decide

/-- C5: `sanitize "../../etc/passwd"` with base path "/safe/dir" returns the
path "/safe/dir/etc/passwd": both leading parent-reference segments occur at
depth 0 and are discarded, and the base path is joined as a prefix to the
cleaned relative path. -/
theorem c5_base_path_join :
    sanitize false "../../etc/passwd" (some "/safe/dir") =
      Except.ok ⟨"/safe/dir/etc/passwd"⟩ := by decide

/-- C6 (counterexample): in hardened mode an input containing an embedded NUL
byte inside a longer segment is not rejected - `any_nul_bytes` compares whole
components against "\0" - refuting the claimed equivalence with "the raw input
contains an embedded NUL byte". -/
theorem c6_counterexample :
    sanitize true "a\x00" none = Except.ok ⟨"a\x00"⟩ ∧
    decide (nulChar ∈ "a\x00".toList) = true :=
  ⟨by decide, by decide⟩

/-- C6 (amended): `sanitize` fails - with the InvalidData error - exactly when
hardened NUL-byte rejection is enabled and some component of the raw input is
the one-character NUL segment; in particular, in relaxed mode it returns Ok
for every input. -/
theorem c6_amended (failOnNulByte : Bool) (s : String) (b : Option String) :
    isErr (sanitize failOnNulByte s b) =
      (failOnNulByte && anyNulBytesCh s.toList) := by
  unfold sanitize
  cases h : failOnNulByte && anyNulBytesCh s.toList
  · rw [if_neg (by simp [h])]
    rfl
  · rw [if_pos (by simp [h])]
    rfl

/-- C7: sanitization with no base path is idempotent: for every input path p,
sanitizing the path produced by `sanitize p` (no base) again with no base
yields that same path unchanged. -/
theorem c7_idempotent (p : String) (sp : SanitizedPath)
    (h : sanitize false p none = Except.ok sp) :
    sanitize false sp.path none = Except.ok sp := by
  have he : sanitize false p none =
      Except.ok ⟨String.mk (cleanedChars p.toList)⟩ := rfl
  rw [he] at h
  obtain rfl : sp = ⟨String.mk (cleanedChars p.toList)⟩ := (Except.ok.inj h).symm
  show sanitize false (String.mk (cleanedChars p.toList)) none = _
  have h2 : sanitize false (String.mk (cleanedChars p.toList)) none =
      Except.ok ⟨String.mk (cleanedChars (cleanedChars p.toList))⟩ := rfl
  rw [h2, cleanedChars_idem]

/-- Witness for C7 at the input "a/../b", whose sanitized path is "a/b". -/
theorem c7_witness : sanitize false "a/b" none = Except.ok ⟨"a/b"⟩ :=
  c7_idempotent "a/../b" ⟨"a/b"⟩ (by decide)

/-- C8 (counterexample): an absolute input does not produce the same cleaned
result as the same input with the anchor removed: "/a" cleans to "./a" while
"a" cleans to "a". -/
theorem c8_counterexample :
    sanitize false "/a" none = Except.ok ⟨"./a"⟩ ∧
    sanitize false "a" none = Except.ok ⟨"a"⟩ ∧
    decide (("./a" : String) = "a") = false :=
  ⟨by decide, by decide, by decide⟩

/-- C8 (amended): a leading root anchor is degraded to a current-directory
marker rather than stripped without trace: the cleaned components of a rooted
input are exactly the cleaned components of the unrooted input with one
leading current-directory marker prepended. -/
theorem c8_amended (cs : List Component) :
    sanitizeComponents (Component.rootDir :: cs) =
      Component.curDir :: sanitizeComponents cs :=
  sanitizeComponents_cons Component.rootDir cs

/-- C9: for every input path, the cleaned path produced by `sanitize` (before
any base join) contains no parent-directory component at all: every
parent-reference segment of the input is dropped, because the depth observed
by the per-component step never exceeds 0. -/
theorem c9_no_parent_components (s : String) :
    parentCount (sanitizeComponents (parseComponents s)) = 0 :=
  parentCount_sanitizeComponents (parseComponents s)

/-- C10: the debug-build post-construction assertion demands
`any_nul_bytes(final_path)` be true, i.e. that the final path contain a
component that is exactly the NUL-byte segment; for an ordinary input such as
"a/b" no such component exists and the assertion fails, so the assertion is
inverted relative to the function's intended use. -/
theorem c10_assert_inverted :
    (∀ (p : String) (b : Option String),
      debugAssertCond p b = true ↔
        Component.normal [nulChar] ∈
          parseComponentsCh (finalChars p.toList (b.map String.toList))) ∧
    debugAssertCond "a/b" none = false := by
  constructor
  · intro p b
    exact anyNulBytes_iff_mem _
  · decide

end BuccSecco
